import Mathlib

/-!
Verification of the batch job-creation and validation pipeline
(`scan_repo.py`, `create_jobs.py`, `validate_jobs.py`).

The Python scripts are shallowly embedded: pure helpers become Lean
functions over `List`/`String`; each HTTP call the scripts issue is
recorded in an explicit request trace, and a raised exception
(`raise_for_status` / `SystemExit`) is modelled as an `Option String`
error that aborts the rest of the run, exactly as an uncaught Python
exception would.
-/

set_option maxRecDepth 200000

namespace Pipeline

/-- A row of the `files_manifest` table as selected by
`fetch_pending_files` (`select=id,path,language,kind,status`). -/
structure FileRow where
  id : Nat
  path : String
  language : Option String
  kind : Option String
  status : String
deriving DecidableEq

/-- A row of the `jobs` table as selected by `fetch_jobs_to_validate`
(`select=id,file_id,status,converted_code,last_error`). -/
structure JobRow where
  id : Nat
  file_id : Nat
  status : String
  converted_code : Option String
  last_error : Option String
deriving DecidableEq

/-- Python `x or default` applied to an optional string field
(`f.get("language") or "unknown"`): `None` and `""` are falsy. -/
def orDefault (x : Option String) (d : String) : String :=
  match x with
  | none => d
  | some s => if s = "" then d else s

/-! ## `chunk_list` (create_jobs.py, lines 52-57)

Python:
```
def chunk_list(items, size):
    for i in range(0, len(items), size):
        yield items[i: i + size]
```
Embedded with structural fuel (`items.length` bounds the number of
chunks whenever `0 < size`, since every step consumes at least one
element).  The only caller uses `size = BATCH_SIZE = 20`; `size = 0`
would raise `ValueError` in Python (`range` step 0) and is outside
every claim, which all assume a positive size. -/

def chunk_go (fuel : Nat) (items : List α) (size : Nat) : List (List α) :=
  match fuel with
  | 0 => []
  | fuel + 1 =>
    match items with
    | [] => []
    | _ :: _ => items.take size :: chunk_go fuel (items.drop size) size

def chunk_list (items : List α) (size : Nat) : List (List α) :=
  chunk_go items.length items size

/-- `BATCH_SIZE = 20` (create_jobs.py, line 22). -/
def BATCH_SIZE : Nat := 20

/-! ## Deduplication in `fetch_pending_files` (create_jobs.py, lines 40-47)

Python:
```
seen = {}
for row in rows:
    p = row["path"]
    if p not in seen:
        seen[p] = row
unique_files = list(seen.values())
```
Python dicts preserve insertion order, so `seen` is the list of first
occurrences in input order; membership in `seen` is membership of the
path among the rows kept so far. -/

def dedup_by_path (rows : List FileRow) : List FileRow :=
  rows.foldl (fun seen row => if seen.any (fun r => r.path == row.path) then seen else seen ++ [row]) []

/-! ## `detect_kind` (scan_repo.py, lines 58-64)

Python:
```
def detect_kind(path: str) -> str:
    lower = path.lower()
    if "test" in lower or lower.endswith("_test.py") or lower.endswith("_test.go"):
        return "test"
    if "config" in lower or lower.endswith(".yml") or lower.endswith(".yaml"):
        return "config"
    return "source"
```
`str.lower` is modelled on the ASCII range (all paths the scanner
produces, and all suffixes tested, are ASCII); `in` is substring
containment and `endswith` is suffix testing, both on the char list. -/

def lower_char (c : Char) : Char :=
  if 'A' ≤ c ∧ c ≤ 'Z' then Char.ofNat (c.toNat + 32) else c

def py_lower (s : String) : List Char :=
  s.data.map lower_char

/-- Python `sub in s` on strings: substring containment. -/
def py_in (sub : List Char) : List Char → Bool
  | [] => sub.isEmpty
  | c :: rest => sub.isPrefixOf (c :: rest) || py_in sub rest

def detect_kind (path : String) : String :=
  let lower := py_lower path
  if py_in "test".data lower || "_test.py".data.isSuffixOf lower
      || "_test.go".data.isSuffixOf lower then "test"
  else if py_in "config".data lower || ".yml".data.isSuffixOf lower
      || ".yaml".data.isSuffixOf lower then "config"
  else "source"

/-- Specification-side reading of the `test` condition: the
lower-cased path contains `"test"` or ends with a recognized
test-file suffix. -/
def test_cond (path : String) : Prop :=
  "test".data <:+: py_lower path ∨ "_test.py".data <:+ py_lower path
    ∨ "_test.go".data <:+ py_lower path

/-- Specification-side reading of the `config` condition: the
lower-cased path contains `"config"` or ends with `.yml`/`.yaml`. -/
def config_cond (path : String) : Prop :=
  "config".data <:+: py_lower path ∨ ".yml".data <:+ py_lower path
    ∨ ".yaml".data <:+ py_lower path

/-! ## Validator decision (validate_jobs.py, lines 71-82)

Python, for each job:
```
code = job.get("converted_code") or ""
code_stripped = code.strip()
if not code_stripped:
    update_job(jid, "failed_validation", "No converted_code saved for this job.")
else:
    update_job(jid, "converted_ok", None)
```
`str.strip()` removes the whitespace characters
` `, `\t`, `\n`, `\r`, `\x0b`, `\x0c` from both ends. -/

def py_ws (c : Char) : Bool :=
  c = ' ' || c = '\t' || c = '\n' || c = '\r' || c.toNat = 11 || c.toNat = 12

def py_strip_chars (l : List Char) : List Char :=
  ((l.dropWhile py_ws).reverse.dropWhile py_ws).reverse

def py_strip (s : String) : String :=
  ⟨py_strip_chars s.data⟩

/-- The fixed diagnostic recorded on validation failure. -/
def NO_CODE_MSG : String := "No converted_code saved for this job."

/-- The status/last_error pair the validator sends for one job. -/
def validate_decision (converted_code : Option String) : String × Option String :=
  let code := orDefault converted_code ""
  let code_stripped := py_strip code
  if code_stripped = "" then ("failed_validation", some NO_CODE_MSG)
  else ("converted_ok", none)

/-! ## `textwrap.dedent` and the prompt template (create_jobs.py, lines 60-106)

`dedent` (CPython): first every line consisting solely of spaces/tabs
is replaced by an empty line; then the margin is the longest common
prefix of the leading space/tab runs of all lines that contain a
non-whitespace character; finally that margin is removed from the
start of every line that begins with it. -/

def split_on (sep : Char) : List Char → List (List Char)
  | [] => [[]]
  | c :: rest =>
    match split_on sep rest with
    | [] => [[c]]
    | h :: t => if c = sep then [] :: h :: t else (c :: h) :: t

def join_with (sep : Char) : List (List Char) → List Char
  | [] => []
  | [l] => l
  | l :: ls => l ++ sep :: join_with sep ls

/-- Space or tab, the whitespace class used by `textwrap.dedent`. -/
def dedent_ws (c : Char) : Bool :=
  c = ' ' || c = '\t'

/-- A line matching dedent's `^[ \t]+$` (whitespace-only, non-empty). -/
def ws_only (l : List Char) : Bool :=
  !l.isEmpty && l.all dedent_ws

/-- Longest common prefix of two char lists. -/
def lcp : List Char → List Char → List Char
  | a :: as, b :: bs => if a = b then a :: lcp as bs else []
  | _, _ => []

/-- The dedent margin: longest common prefix of the indents of all
lines containing a character outside `[ \t]`. -/
def dedent_margin (lines : List (List Char)) : List Char :=
  match (lines.filter (fun l => !l.all dedent_ws)).map (fun l => l.takeWhile dedent_ws) with
  | [] => []
  | i :: is => is.foldl lcp i

def drop_margin (margin l : List Char) : List Char :=
  if margin.isPrefixOf l then l.drop margin.length else l

/-- Normalization of a whitespace-only line to an empty line
(dedent's `^[ \t]+$` → `""` substitution, applied linewise). -/
def ws_norm (l : List Char) : List Char :=
  if ws_only l then [] else l

/-- Margin removal over the normalized lines (`re.sub(r'(?m)^'+margin, '', text)`;
skipped entirely when the margin is empty). -/
def dedent_lines (lines : List (List Char)) : List (List Char) :=
  if (dedent_margin lines).isEmpty then lines
  else lines.map (drop_margin (dedent_margin lines))

def py_dedent (text : List Char) : List Char :=
  join_with '\n' (dedent_lines ((split_on '\n' text).map ws_norm))

/-- The decimal digit characters used by Python `str(n)`. -/
def digit_char : Nat → Char
  | 0 => '0'
  | 1 => '1'
  | 2 => '2'
  | 3 => '3'
  | 4 => '4'
  | 5 => '5'
  | 6 => '6'
  | 7 => '7'
  | 8 => '8'
  | _ => '9'

/-- Python `str(n)` for a natural number, with structural fuel
(`n + 1` bounds the digit count). -/
def nat_digits (fuel n : Nat) : List Char :=
  match fuel with
  | 0 => []
  | fuel + 1 =>
    if n < 10 then [digit_char n]
    else nat_digits fuel (n / 10) ++ [digit_char (n % 10)]

def py_str_nat (n : Nat) : List Char :=
  nat_digits (n + 1) n

/-- `make_raw_url` (create_jobs.py, lines 60-63):
`f"{REPO_RAW_BASE_URL}/{file_path}"`. -/
def make_raw_url (base_url file_path : String) : String :=
  base_url ++ "/" ++ file_path

/-- One line of the enumerated files list (create_jobs.py, line 75):
`f"{idx}. {f['path']} | language={lang} | kind={kind} | url={raw_url}"`. -/
def entry_line (base_url : String) (idx : Nat) (f : FileRow) : List Char :=
  py_str_nat idx ++ ". ".data ++ f.path.data
    ++ " | language=".data ++ (orDefault f.language "unknown").data
    ++ " | kind=".data ++ (orDefault f.kind "source").data
    ++ " | url=".data ++ (make_raw_url base_url f.path).data

def entry_lines (base_url : String) (batch : List FileRow) : List (List Char) :=
  (batch.enumFrom 1).map (fun p => entry_line base_url p.1 p.2)

/-- `files_list = "\n".join(lines)` (create_jobs.py, line 77). -/
def files_list (base_url : String) (batch : List FileRow) : List Char :=
  join_with '\n' (entry_lines base_url batch)

/-- The fixed lines of the f-string template (create_jobs.py,
lines 79-102), up to but excluding the `    {files_list}` line.  The
raw template text starts with a newline (the line break right after
the opening triple quote) which is the leading empty line here. -/
def template_fixed : List (List Char) :=
  [ [],
    "    CONVERSION TASK (STRICT - NO HALLUCINATIONS)".data,
    [],
    "    You will convert **exactly** the files listed below to <TARGET_LANGUAGE>.".data,
    [],
    "    RULES:".data,
    "    - You MUST fetch each file from its raw GitHub URL (do not guess contents).".data,
    "    - Do NOT invent or assume missing files or functions.".data,
    "    - If any URL is unreachable, STOP and say which one failed.".data,
    "    - NO new features.".data,
    "    - Preserve behavior, inputs, outputs, and public APIs.".data,
    "    - Only convert the files listed; nothing else.".data,
    [],
    "    OUTPUT FORMAT (MUST FOLLOW THIS EXACTLY, ONE BLOCK PER FILE IN ORDER):".data,
    [],
    "    === FILE: original/path.ext ===".data,
    "    <converted <TARGET_LANGUAGE> code only>".data,
    [],
    "    === FILE: next/path2.ext ===".data,
    "    <converted <TARGET_LANGUAGE> code only>".data,
    [],
    "    (no explanations, no commentary, no extra text)".data,
    [],
    "    FILES TO CONVERT (in order):".data ]

/-- The formatted f-string before `dedent`: the fixed lines, then the
line `    {files_list}`, then the final line `    ` (the indent before
the closing triple quote). -/
def template_text (fl : List Char) : List Char :=
  join_with '\n' template_fixed ++ '\n' :: (("    ".data ++ fl) ++ '\n' :: "    ".data)

/-- `build_prompt` (create_jobs.py, lines 66-106):
`dedent(f"""...""").strip()`, at the character-list level. -/
def build_prompt_chars (base_url : String) (batch : List FileRow) : List Char :=
  py_strip_chars (py_dedent (template_text (files_list base_url batch)))

/-- `build_prompt` packaged as a string. -/
def build_prompt (base_url : String) (batch : List FileRow) : String :=
  ⟨build_prompt_chars base_url batch⟩

/-! ## Request traces

Every HTTP request a script issues is recorded as a `Req`.  A run
returns the trace of requests issued, in order, together with
`some message` if an uncaught exception (`raise_for_status`,
`SystemExit`) aborted it, else `none`.  Whether each request succeeds
is supplied by an oracle, standing for the remote store's responses. -/

inductive Req where
  | getFiles
  | postJob (file_id : Nat) (file_paths : List String) (status : String) (prompt : String)
  | patchFile (id : Nat) (status : String)
  | getJobs
  | patchJob (id : Nat) (status : String) (last_error : Option String)
  | postFiles (paths : List String)
deriving DecidableEq

/-- The per-file `PATCH ... status=in_job` loop at the end of
`create_job` (create_jobs.py, lines 133-148): requests are issued in
batch order; `u_resp.raise_for_status()` aborts at the first failing
one. -/
def patch_files (patchOk : Nat → Bool) : List FileRow → List Req × Option String
  | [] => ([], none)
  | f :: fs =>
    let req := Req.patchFile f.id "in_job"
    if patchOk f.id then
      let rest := patch_files patchOk fs
      (req :: rest.1, rest.2)
    else ([req], some "file PATCH failed")

/-- `create_job` (create_jobs.py, lines 109-148).  An empty batch
returns before issuing anything; otherwise one `POST jobs` is issued
(with `file_id` of the first file, all paths, `status=queued` and the
built prompt), `resp.raise_for_status()` aborts on failure, and only
then the per-file status updates run. -/
def create_job (base_url : String) (batch : List FileRow)
    (postOk : Bool) (patchOk : Nat → Bool) : List Req × Option String :=
  match batch with
  | [] => ([], none)
  | first_file :: _ =>
    let req := Req.postJob first_file.id (batch.map (fun f => f.path)) "queued"
      (build_prompt base_url batch)
    if postOk then
      let rest := patch_files patchOk batch
      (req :: rest.1, rest.2)
    else ([req], some "job POST failed")

/-- The batch loop in `create_jobs.main` (lines 157-160): batches are
submitted in order; an exception in `create_job` propagates and aborts
the remaining batches. -/
def create_batches (base_url : String) (postOk : List FileRow → Bool)
    (patchOk : Nat → Bool) : List (List FileRow) → List Req × Option String
  | [] => ([], none)
  | b :: bs =>
    let r := create_job base_url b (postOk b) patchOk
    match r.2 with
    | some e => (r.1, some e)
    | none =>
      let rest := create_batches base_url postOk patchOk bs
      (r.1 ++ rest.1, rest.2)

/-- Store responses for one `create_jobs` run. -/
structure CreateOracle where
  fetchOk : Bool
  rows : List FileRow
  postOk : List FileRow → Bool
  patchOk : Nat → Bool

/-- `create_jobs.main` (lines 151-160): fetch pending files (dedup by
path inside `fetch_pending_files`), return if none, else chunk into
batches of `BATCH_SIZE` and submit each. -/
def create_jobs_main (base_url : String) (o : CreateOracle) : List Req × Option String :=
  if o.fetchOk then
    let files := dedup_by_path o.rows
    if files.isEmpty then ([Req.getFiles], none)
    else
      let rest := create_batches base_url o.postOk o.patchOk (chunk_list files BATCH_SIZE)
      (Req.getFiles :: rest.1, rest.2)
  else ([Req.getFiles], some "GET files failed")

/-- The validator's per-job loop (validate_jobs.py, lines 71-82): for
each job compute `validate_decision` and issue the `PATCH`;
`resp.raise_for_status()` inside `update_job` aborts the loop at the
first failing update. -/
def validate_loop (updOk : Nat → Bool) : List JobRow → List Req × Option String
  | [] => ([], none)
  | job :: rest =>
    let d := validate_decision job.converted_code
    let req := Req.patchJob job.id d.1 d.2
    if updOk job.id then
      let r := validate_loop updOk rest
      (req :: r.1, r.2)
    else ([req], some "job PATCH failed")

/-- Store responses for one `validate_jobs` run. -/
structure ValidateOracle where
  fetchOk : Bool
  jobs : List JobRow
  updOk : Nat → Bool

/-- `validate_jobs.main` (lines 63-82). -/
def validate_jobs_main (o : ValidateOracle) : List Req × Option String :=
  if o.fetchOk then
    if o.jobs.isEmpty then ([Req.getJobs], none)
    else
      let rest := validate_loop o.updOk o.jobs
      (Req.getJobs :: rest.1, rest.2)
  else ([Req.getJobs], some "GET jobs failed")

/-! ## Environment preflight (top of each script)

Each script reads its configuration with `os.environ.get` and raises
`SystemExit` before any request when a required value is missing or
empty (`if not SUPABASE_URL or ...`). -/

structure Env where
  supabase_url : Option String
  service_role_key : Option String
  repo_raw_base_url : Option String

/-- Python truthiness of `os.environ.get(...)`: `None` and `""` are
falsy. -/
def py_truthy (x : Option String) : Bool :=
  match x with
  | none => false
  | some s => !(s = "")

/-- scan_repo.py lines 5-9 / validate_jobs.py lines 6-10: two
required values, same check. -/
def two_var_preflight (e : Env) (msg : String) : Except String (String × String) :=
  if py_truthy e.supabase_url && py_truthy e.service_role_key then
    Except.ok (e.supabase_url.getD "", e.service_role_key.getD "")
  else Except.error msg

/-- create_jobs.py lines 6-11: three required values. -/
def create_preflight (e : Env) : Except String (String × String × String) :=
  if py_truthy e.supabase_url && py_truthy e.service_role_key
      && py_truthy e.repo_raw_base_url then
    Except.ok (e.supabase_url.getD "", e.service_role_key.getD "",
      e.repo_raw_base_url.getD "")
  else Except.error "Missing SUPABASE_URL, SUPABASE_SERVICE_ROLE_KEY, or REPO_RAW_BASE_URL"

/-- A full `create_jobs` process run: module-level preflight, then
`main()`. -/
def create_jobs_run (e : Env) (o : CreateOracle) : List Req × Option String :=
  match create_preflight e with
  | Except.error m => ([], some m)
  | Except.ok cfg => create_jobs_main cfg.2.2 o

/-- A full `validate_jobs` process run. -/
def validate_jobs_run (e : Env) (o : ValidateOracle) : List Req × Option String :=
  match two_var_preflight e "Missing SUPABASE_URL or SUPABASE_SERVICE_ROLE_KEY env vars" with
  | Except.error m => ([], some m)
  | Except.ok _ => validate_jobs_main o

/-- A full `scan_repo` process run.  The directory walk
(`scan_repo(".")`) touches no network; its result is the `records`
parameter, here just the scanned paths.  `upsert_files_manifest`
returns without a request on an empty record list, else issues one
`POST files_manifest`. -/
def scan_repo_run (e : Env) (records : List String) (postOk : Bool) :
    List Req × Option String :=
  match two_var_preflight e "Missing SUPABASE_URL or SUPABASE_SERVICE_ROLE_KEY env vars" with
  | Except.error m => ([], some m)
  | Except.ok _ =>
    if records.isEmpty then ([], none)
    else ([Req.postFiles records], if postOk then none else some "POST files failed")

/-- Concrete base URL used as a witness fixture. -/
def wit_url : String := "https://raw.x/r/main"

/-- Concrete two-file batch used as a witness fixture. -/
def wit_batch : List FileRow :=
  [⟨1, "a.py", some "python", some "source", "pending"⟩,
   ⟨2, "b/c.js", none, none, "pending"⟩]

/-! # Theorems -/

/-- `py_in` decides substring containment. -/
theorem py_in_iff (sub : List Char) (l : List Char) :
    py_in sub l = true ↔ sub <:+: l := by
  induction l with
  | nil =>
    simp [py_in, List.isEmpty_iff, List.infix_nil]
  | cons c rest ih =>
    simp [py_in, List.infix_cons_iff, List.isPrefixOf_iff_prefix, ih]

end Pipeline

namespace Pipeline

/-- Claim C4: for every job processed by the validator, the job is
transitioned to `converted_ok` iff its `converted_code` is present and
non-empty after trimming surrounding whitespace; otherwise (missing,
empty, or whitespace-only) it is transitioned to `failed_validation`
with `last_error` set to the fixed non-null diagnostic string; in
particular `"   "` and `null` fail while `"x"` passes. -/
theorem validator_pass_fail_boundary (conv : Option String) :
    (validate_decision conv = ("converted_ok", none) ↔
      ∃ s, conv = some s ∧ py_strip s ≠ "")
    ∧ (validate_decision conv = ("converted_ok", none) ∨
       validate_decision conv = ("failed_validation", some NO_CODE_MSG))
    ∧ validate_decision (some "   ") = ("failed_validation", some NO_CODE_MSG)
    ∧ validate_decision (some "x") = ("converted_ok", none)
    ∧ validate_decision none = ("failed_validation", some NO_CODE_MSG) := by
  have hfs :
      ∀ m : Option String, validate_decision m = ("converted_ok", none) ∨
        validate_decision m = ("failed_validation", some NO_CODE_MSG) := by
    intro m
    unfold validate_decision
    by_cases h : py_strip (orDefault m "") = ""
    · right; rw [if_pos h]
    · left; rw [if_neg h]
  refine ⟨?_, hfs conv, by decide, by decide, by decide⟩
  cases conv with
  | none =>
    constructor
    · intro h
      have : validate_decision (none : Option String) =
          ("failed_validation", some NO_CODE_MSG) := by decide
      rw [this] at h
      exact absurd h (by decide)
    · rintro ⟨s, hs, _⟩
      cases hs
  | some s =>
    by_cases hs : s = ""
    · subst hs
      constructor
      · intro h
        have : validate_decision (some "") =
            ("failed_validation", some NO_CODE_MSG) := by decide
        rw [this] at h
        exact absurd h (by decide)
      · rintro ⟨t, ht, hne⟩
        cases ht
        exact absurd (by decide) hne
    · have hod : orDefault (some s) "" = s := by
        simp [orDefault, hs]
      constructor
      · intro h
        refine ⟨s, rfl, ?_⟩
        intro hstrip
        unfold validate_decision at h
        rw [hod, if_pos hstrip] at h
        exact absurd h (by decide)
      · rintro ⟨t, ht, hne⟩
        obtain rfl : s = t := by cases ht; rfl
        unfold validate_decision
        rw [hod, if_neg hne]

/-- Claim C7: `detect_kind` returns `test` iff the lower-cased path
contains `"test"` or ends with a recognized test suffix; otherwise
`config` iff it contains `"config"` or ends with `.yml`/`.yaml`;
otherwise `source`.  The `test` check precedes the `config` check, so
a YAML path containing `"test"` is classified `test`. -/
theorem detect_kind_spec (path : String) :
    (detect_kind path = "test" ↔ test_cond path)
    ∧ (detect_kind path = "config" ↔ ¬test_cond path ∧ config_cond path)
    ∧ (detect_kind path = "source" ↔ ¬test_cond path ∧ ¬config_cond path)
    ∧ detect_kind "ci/test.yaml" = "test" := by
  have hT : (py_in "test".data (py_lower path)
        || "_test.py".data.isSuffixOf (py_lower path)
        || "_test.go".data.isSuffixOf (py_lower path)) = true ↔ test_cond path := by
    simp [test_cond, py_in_iff, List.isSuffixOf_iff_suffix, or_assoc]
  have hC : (py_in "config".data (py_lower path)
        || ".yml".data.isSuffixOf (py_lower path)
        || ".yaml".data.isSuffixOf (py_lower path)) = true ↔ config_cond path := by
    simp [config_cond, py_in_iff, List.isSuffixOf_iff_suffix, or_assoc]
  have det : detect_kind path =
      if (py_in "test".data (py_lower path)
          || "_test.py".data.isSuffixOf (py_lower path)
          || "_test.go".data.isSuffixOf (py_lower path)) then "test"
      else if (py_in "config".data (py_lower path)
          || ".yml".data.isSuffixOf (py_lower path)
          || ".yaml".data.isSuffixOf (py_lower path)) then "config"
      else "source" := rfl
  by_cases hbT : (py_in "test".data (py_lower path)
      || "_test.py".data.isSuffixOf (py_lower path)
      || "_test.go".data.isSuffixOf (py_lower path)) = true
  · have hTc : test_cond path := hT.mp hbT
    rw [det, if_pos hbT]
    refine ⟨?_, ?_, ?_, by decide⟩
    · exact ⟨fun _ => hTc, fun _ => rfl⟩
    · constructor
      · intro h
        exact absurd h (by decide)
      · rintro ⟨hn, _⟩
        exact absurd hTc hn
    · constructor
      · intro h
        exact absurd h (by decide)
      · rintro ⟨hn, _⟩
        exact absurd hTc hn
  · have hTc : ¬ test_cond path := fun hp => hbT (hT.mpr hp)
    rw [det, if_neg hbT]
    by_cases hbC : (py_in "config".data (py_lower path)
        || ".yml".data.isSuffixOf (py_lower path)
        || ".yaml".data.isSuffixOf (py_lower path)) = true
    · have hCc : config_cond path := hC.mp hbC
      rw [if_pos hbC]
      refine ⟨?_, ?_, ?_, by decide⟩
      · constructor
        · intro h
          exact absurd h (by decide)
        · intro hp
          exact absurd hp hTc
      · exact ⟨fun _ => ⟨hTc, hCc⟩, fun _ => rfl⟩
      · constructor
        · intro h
          exact absurd h (by decide)
        · rintro ⟨_, hn⟩
          exact absurd hCc hn
    · have hCc : ¬ config_cond path := fun hp => hbC (hC.mpr hp)
      rw [if_neg hbC]
      refine ⟨?_, ?_, ?_, by decide⟩
      · constructor
        · intro h
          exact absurd h (by decide)
        · intro hp
          exact absurd hp hTc
      · constructor
        · intro h
          exact absurd h (by decide)
        · rintro ⟨_, hp⟩
          exact absurd hp hCc
      · exact ⟨fun _ => ⟨hTc, hCc⟩, fun _ => rfl⟩

/-- Claim C8: `build_prompt` is deterministic — two calls with equal
batches and equal raw base URLs return byte-identical prompt strings;
the output depends only on those arguments. -/
theorem build_prompt_deterministic (b₁ b₂ : List FileRow) (u₁ u₂ : String)
    (hb : b₁ = b₂) (hu : u₁ = u₂) :
    build_prompt u₁ b₁ = build_prompt u₂ b₂ := by
  subst hb
  subst hu
  rfl

/-! ### Lemmas about `chunk_list` -/

theorem chunk_go_nil (fuel size : Nat) : chunk_go fuel ([] : List α) size = [] := by
  cases fuel <;> rfl

theorem chunk_go_congr {α : Type} :
    ∀ (f₁ f₂ : Nat) (l : List α) (size : Nat), l.length ≤ f₁ → l.length ≤ f₂ →
      0 < size → chunk_go f₁ l size = chunk_go f₂ l size := by
  intro f₁
  induction f₁ with
  | zero =>
    intro f₂ l size h1 _ _
    have : l = [] := List.length_eq_zero.mp (Nat.le_zero.mp h1)
    subst this
    rw [chunk_go_nil, chunk_go_nil]
  | succ f ih =>
    intro f₂ l size h1 h2 hs
    cases l with
    | nil => rw [chunk_go_nil, chunk_go_nil]
    | cons c rest =>
      cases f₂ with
      | zero =>
        simp at h2
      | succ f₂' =>
        show (c :: rest).take size :: chunk_go f ((c :: rest).drop size) size
          = (c :: rest).take size :: chunk_go f₂' ((c :: rest).drop size) size
        have hd : ((c :: rest).drop size).length ≤ f := by
          simp only [List.length_drop, List.length_cons]
          simp at h1
          omega
        have hd2 : ((c :: rest).drop size).length ≤ f₂' := by
          simp only [List.length_drop, List.length_cons]
          simp at h2
          omega
        rw [ih f₂' _ size hd hd2 hs]

theorem chunk_list_nil (size : Nat) : chunk_list ([] : List α) size = [] := rfl

theorem chunk_list_cons {α : Type} (l : List α) (size : Nat) (hs : 0 < size)
    (hl : l ≠ []) :
    chunk_list l size = l.take size :: chunk_list (l.drop size) size := by
  cases l with
  | nil => exact absurd rfl hl
  | cons c rest =>
    show chunk_go (rest.length + 1) (c :: rest) size = _
    show (c :: rest).take size :: chunk_go rest.length ((c :: rest).drop size) size = _
    rw [chunk_go_congr rest.length ((c :: rest).drop size).length _ size
      (by simp only [List.length_drop, List.length_cons]; omega) (le_refl _) hs]
    rfl

theorem chunk_list_ne_nil_iff {α : Type} (l : List α) (size : Nat) (hs : 0 < size) :
    chunk_list l size = [] ↔ l = [] := by
  cases l with
  | nil => simp [chunk_list_nil]
  | cons c rest =>
    rw [chunk_list_cons _ _ hs (by simp)]
    simp

theorem chunk_flatten {α : Type} (size : Nat) (hs : 0 < size) (l : List α) :
    (chunk_list l size).flatten = l := by
  by_cases hl : l = []
  · subst hl; rfl
  · rw [chunk_list_cons l size hs hl, List.flatten_cons,
      chunk_flatten size hs (l.drop size), List.take_append_drop]
termination_by l.length
decreasing_by
  simp only [List.length_drop]
  have := List.length_pos.mpr hl
  omega

theorem chunk_mem {α : Type} (size : Nat) (hs : 0 < size) (l : List α) :
    ∀ c ∈ chunk_list l size, c ≠ [] ∧ c.length ≤ size := by
  by_cases hl : l = []
  · subst hl
    intro c hc
    rw [chunk_list_nil] at hc
    exact absurd hc (List.not_mem_nil c)
  · rw [chunk_list_cons l size hs hl]
    intro c hc
    rcases List.mem_cons.mp hc with h | h
    · subst h
      constructor
      · intro heq
        rcases List.take_eq_nil_iff.mp heq with h0 | h0
        · omega
        · exact hl h0
      · simp only [List.length_take]
        omega
    · exact chunk_mem size hs (l.drop size) c h
termination_by l.length
decreasing_by
  simp only [List.length_drop]
  have := List.length_pos.mpr hl
  omega

theorem chunk_sizes {α : Type} (size : Nat) (hs : 0 < size) (l : List α) :
    ∀ i, i + 1 < (chunk_list l size).length →
      ((chunk_list l size).getD i []).length = size := by
  by_cases hl : l = []
  · subst hl
    intro i hi
    rw [chunk_list_nil] at hi
    simp at hi
  · rw [chunk_list_cons l size hs hl]
    intro i hi
    cases i with
    | zero =>
      have hne : chunk_list (l.drop size) size ≠ [] := by
        intro h0
        rw [h0] at hi
        simp at hi
      have hdrop : l.drop size ≠ [] := by
        intro h0
        exact hne (by rw [h0, chunk_list_nil])
      have hlen : size < l.length := by
        rcases Nat.lt_or_ge size l.length with h | h
        · exact h
        · exact absurd (List.drop_eq_nil_iff.mpr h) hdrop
      show (l.take size).length = size
      simp only [List.length_take]
      omega
    | succ j =>
      rw [List.getD_cons_succ]
      apply chunk_sizes size hs (l.drop size) j
      simp only [List.length_cons] at hi
      omega
termination_by l.length
decreasing_by
  simp only [List.length_drop]
  have := List.length_pos.mpr hl
  omega

theorem chunk_last {α : Type} (size : Nat) (hs : 0 < size) (l : List α) :
    (chunk_list l size).getLast?.map List.length =
      if l.length = 0 then none
      else some (if l.length % size = 0 then size else l.length % size) := by
  by_cases hl : l = []
  · subst hl
    rw [chunk_list_nil]
    simp
  · have hpos : 0 < l.length := List.length_pos.mpr hl
    rw [chunk_list_cons l size hs hl]
    by_cases hd : l.drop size = []
    · have hlen : l.length ≤ size := List.drop_eq_nil_iff.mp hd
      rw [hd, chunk_list_nil]
      show some (l.take size).length = _
      simp only [List.length_take]
      rcases Nat.eq_or_lt_of_le hlen with heq | hlt
      · rw [heq]
        simp [Nat.mod_self]
        omega
      · have hmod : l.length % size = l.length := Nat.mod_eq_of_lt hlt
        rw [if_neg (by omega), hmod, if_neg (by omega)]
        congr 1
        omega
    · have hlen : size < l.length := by
        rcases Nat.lt_or_ge size l.length with h | h
        · exact h
        · exact absurd (List.drop_eq_nil_iff.mpr h) hd
      have hne : chunk_list (l.drop size) size ≠ [] := by
        intro h0
        exact hd ((chunk_list_ne_nil_iff _ _ hs).mp h0)
      obtain ⟨x, xs, hx⟩ := List.exists_cons_of_ne_nil hne
      rw [hx, List.getLast?_cons_cons, ← hx, chunk_last size hs (l.drop size)]
      have h1 : (l.drop size).length = l.length - size := List.length_drop size l
      have h2 : (l.length - size) % size = l.length % size :=
        (Nat.mod_eq_sub_mod (by omega)).symm
      rw [h1, if_neg (show ¬l.length - size = 0 by omega), h2,
        if_neg (show ¬l.length = 0 by omega)]
termination_by l.length
decreasing_by
  simp only [List.length_drop]
  omega

/-- Claim C5: for every list and positive batch size, `chunk_list`
partitions the list into contiguous chunks: concatenating the chunks
gives back the input (so order is preserved), every chunk is non-empty
of size at most `size`, every chunk but the last has size exactly
`size`, and the last chunk holds the remainder (`length mod size`, or
`size` when evenly divisible); a 45-element input with size 20 yields
chunk sizes `[20, 20, 5]`. -/
theorem chunk_list_partitions {α : Type} (l : List α) (size : Nat) (h : 0 < size) :
    (chunk_list l size).flatten = l
    ∧ (∀ c ∈ chunk_list l size, c ≠ [] ∧ c.length ≤ size)
    ∧ (∀ i, i + 1 < (chunk_list l size).length →
        ((chunk_list l size).getD i []).length = size)
    ∧ ((chunk_list l size).getLast?.map List.length =
        if l.length = 0 then none
        else some (if l.length % size = 0 then size else l.length % size))
    ∧ (chunk_list (List.range 45) 20).map List.length = [20, 20, 5] :=
  ⟨chunk_flatten size h l, chunk_mem size h l, chunk_sizes size h l,
    chunk_last size h l, by decide⟩

/-- Witness for C5 at the 45-element, size-20 instance from the spec. -/
theorem chunk_list_partitions_witness :
    0 < 20
    ∧ ((chunk_list (List.range 45) 20).flatten = List.range 45
    ∧ (∀ c ∈ chunk_list (List.range 45) 20, c ≠ [] ∧ c.length ≤ 20)
    ∧ (∀ i, i + 1 < (chunk_list (List.range 45) 20).length →
        ((chunk_list (List.range 45) 20).getD i []).length = 20)
    ∧ ((chunk_list (List.range 45) 20).getLast?.map List.length =
        if (List.range 45).length = 0 then none
        else some (if (List.range 45).length % 20 = 0 then 20
          else (List.range 45).length % 20))
    ∧ (chunk_list (List.range 45) 20).map List.length = [20, 20, 5]) :=
  ⟨by decide, chunk_list_partitions (List.range 45) 20 (by decide)⟩

/-- Claim C10: every job covers at least one file — `chunk_list` with a
positive size never yields an empty chunk, and `create_job` on an
empty batch returns immediately with no request issued. -/
theorem no_empty_jobs {α : Type} (l : List α) (size : Nat) (h : 0 < size)
    (base_url : String) (postOk : Bool) (patchOk : Nat → Bool) :
    [] ∉ chunk_list l size
    ∧ create_job base_url [] postOk patchOk = ([], none) := by
  constructor
  · intro hmem
    exact (chunk_mem size h l [] hmem).1 rfl
  · rfl

/-- Witness for C10 at a concrete list, size, and oracle. -/
theorem no_empty_jobs_witness :
    0 < 2
    ∧ ([] ∉ chunk_list [10, 11, 12] 2
    ∧ create_job "u" [] true (fun _ => true) = ([], none)) :=
  ⟨by decide, no_empty_jobs [10, 11, 12] 2 (by decide) "u" true (fun _ => true)⟩

/-- Counterexample to claim C1: for the one-file batch containing
`a.py`, the prompt built by `build_prompt` contains no block delimited
by the marker `=== FILE: a.py ===` — the `=== FILE: ... ===` lines in
the prompt are fixed format instructions with the example paths
`original/path.ext` and `next/path2.ext`, not per-file blocks. -/
theorem prompt_lacks_per_file_markers :
    ¬ ("=== FILE: a.py ===".data <:+:
      (build_prompt "https://raw.example.com/u/r/main"
        [⟨1, "a.py", some "python", some "source", "pending"⟩]).data) := by
  rw [← py_in_iff]
  decide

/-- Unfolding equation for the prompt body, recorded while the
definition is still reducible. -/
theorem build_prompt_chars_eq (u : String) (b : List FileRow) :
    build_prompt_chars u b
      = py_strip_chars (py_dedent (template_text (files_list u b))) := rfl

attribute [irreducible] build_prompt_chars

/-- The characters of the built prompt. -/
theorem build_prompt_data (u : String) (b : List FileRow) :
    (build_prompt u b).data = build_prompt_chars u b := rfl

theorem join_with_singleton (c : Char) (l : List Char) : join_with c [l] = l := rfl

/-! ### Character and digit lemmas for the prompt structure -/

theorem digit_char_not_ws (d : Nat) :
    dedent_ws (digit_char d) = false ∧ py_ws (digit_char d) = false
      ∧ digit_char d ≠ '\n' := by
  rcases d with _ | _ | _ | _ | _ | _ | _ | _ | _ | d
  · exact ⟨by decide, by decide, by decide⟩
  · exact ⟨by decide, by decide, by decide⟩
  · exact ⟨by decide, by decide, by decide⟩
  · exact ⟨by decide, by decide, by decide⟩
  · exact ⟨by decide, by decide, by decide⟩
  · exact ⟨by decide, by decide, by decide⟩
  · exact ⟨by decide, by decide, by decide⟩
  · exact ⟨by decide, by decide, by decide⟩
  · exact ⟨by decide, by decide, by decide⟩
  · show dedent_ws '9' = false ∧ py_ws '9' = false ∧ ('9' : Char) ≠ '\n'
    exact ⟨by decide, by decide, by decide⟩

theorem dedent_ws_py_ws {c : Char} (h : py_ws c = false) : dedent_ws c = false := by
  unfold py_ws at h
  unfold dedent_ws
  by_cases hsp : c = ' '
  · subst hsp
    simp at h
  · by_cases htb : c = '\t'
    · subst htb
      simp at h
    · simp [hsp, htb]

theorem nat_digits_all_digits :
    ∀ (fuel n : Nat), ∀ c ∈ nat_digits fuel n, ∃ d, c = digit_char d := by
  intro fuel
  induction fuel with
  | zero =>
    intro n c hc
    exact absurd hc (List.not_mem_nil c)
  | succ f ih =>
    intro n c hc
    unfold nat_digits at hc
    by_cases h : n < 10
    · rw [if_pos h] at hc
      rcases List.mem_cons.mp hc with h1 | h1
      · exact ⟨n, h1⟩
      · exact absurd h1 (List.not_mem_nil c)
    · rw [if_neg h] at hc
      rcases List.mem_append.mp hc with h1 | h1
      · exact ih (n / 10) c h1
      · rcases List.mem_cons.mp h1 with h2 | h2
        · exact ⟨n % 10, h2⟩
        · exact absurd h2 (List.not_mem_nil c)

theorem nat_digits_succ_ne_nil (fuel n : Nat) : nat_digits (fuel + 1) n ≠ [] := by
  unfold nat_digits
  by_cases h : n < 10
  · rw [if_pos h]
    simp
  · rw [if_neg h]
    simp

theorem nat_digits_head_digit :
    ∀ (fuel n : Nat), nat_digits fuel n ≠ [] →
      ∃ d t, nat_digits fuel n = digit_char d :: t := by
  intro fuel
  induction fuel with
  | zero =>
    intro n h
    exact absurd rfl h
  | succ f ih =>
    intro n _
    unfold nat_digits
    by_cases h : n < 10
    · rw [if_pos h]
      exact ⟨n, [], rfl⟩
    · rw [if_neg h]
      rcases hrec : nat_digits f (n / 10) with _ | ⟨x, xs⟩
      · exact ⟨n % 10, [], rfl⟩
      · obtain ⟨d, t, hdt⟩ := ih (n / 10) (by rw [hrec]; simp)
        rw [hrec] at hdt
        refine ⟨d, t ++ [digit_char (n % 10)], ?_⟩
        rw [hdt]
        rfl

theorem py_str_nat_head (n : Nat) : ∃ d t, py_str_nat n = digit_char d :: t :=
  nat_digits_head_digit (n + 1) n (nat_digits_succ_ne_nil n n)

/-! ### Entry-line structure lemmas -/

theorem entry_head (u : String) (i : Nat) (f : FileRow) :
    ∃ d t, entry_line u i f = digit_char d :: t := by
  obtain ⟨d, t, ht⟩ := py_str_nat_head i
  refine ⟨d, t ++ ". ".data ++ f.path.data
    ++ " | language=".data ++ (orDefault f.language "unknown").data
    ++ " | kind=".data ++ (orDefault f.kind "source").data
    ++ " | url=".data ++ (make_raw_url u f.path).data, ?_⟩
  unfold entry_line
  rw [ht]
  simp [List.append_assoc]

theorem entry_all_dedent_ws_false (u : String) (i : Nat) (f : FileRow) :
    (entry_line u i f).all dedent_ws = false := by
  obtain ⟨d, t, ht⟩ := entry_head u i f
  rw [ht]
  simp [List.all_cons, (digit_char_not_ws d).1]

theorem entry_ws_only_false (u : String) (i : Nat) (f : FileRow) :
    ws_only (entry_line u i f) = false := by
  unfold ws_only
  rw [entry_all_dedent_ws_false]
  simp

theorem entry_indent_nil (u : String) (i : Nat) (f : FileRow) :
    (entry_line u i f).takeWhile dedent_ws = [] := by
  obtain ⟨d, t, ht⟩ := entry_head u i f
  rw [ht]
  exact List.takeWhile_cons_of_neg (by rw [(digit_char_not_ws d).1]; simp)

theorem entry_no_newline (u : String) (i : Nat) (f : FileRow)
    (hpath : ∀ c ∈ f.path.data, py_ws c = false)
    (hurl : ∀ c ∈ u.data, c ≠ '\n')
    (hlang : ∀ c ∈ (orDefault f.language "unknown").data, c ≠ '\n')
    (hkind : ∀ c ∈ (orDefault f.kind "source").data, c ≠ '\n') :
    '\n' ∉ entry_line u i f := by
  intro hmem
  have hpath' : ∀ c ∈ f.path.data, c ≠ '\n' := by
    intro c hc heq
    have := hpath c hc
    rw [heq] at this
    exact absurd this (by decide)
  unfold entry_line at hmem
  simp only [List.mem_append] at hmem
  rcases hmem with ((((((((h | h) | h) | h) | h) | h) | h) | h) | h)
  · obtain ⟨d, hd⟩ := nat_digits_all_digits (i + 1) i '\n' h
    exact (digit_char_not_ws d).2.2 hd.symm
  · exact absurd h (by decide)
  · exact hpath' '\n' h rfl
  · exact absurd h (by decide)
  · exact hlang '\n' h rfl
  · exact absurd h (by decide)
  · exact hkind '\n' h rfl
  · exact absurd h (by decide)
  · unfold make_raw_url at h
    rw [String.data_append, String.data_append] at h
    rcases List.mem_append.mp h with h1 | h1
    · rcases List.mem_append.mp h1 with h2 | h2
      · exact hurl '\n' h2 rfl
      · exact absurd h2 (by decide)
    · exact hpath' '\n' h1 rfl

theorem entry_rev_head (u : String) (i : Nat) (f : FileRow)
    (hne : f.path.data ≠ []) (hpath : ∀ c ∈ f.path.data, py_ws c = false) :
    ∃ c t, (entry_line u i f).reverse = c :: t ∧ py_ws c = false := by
  have hrev : (entry_line u i f).reverse
      = f.path.data.reverse ++ ("/".data.reverse ++ u.data.reverse
        ++ (py_str_nat i ++ ". ".data ++ f.path.data
          ++ " | language=".data ++ (orDefault f.language "unknown").data
          ++ " | kind=".data ++ (orDefault f.kind "source").data
          ++ " | url=".data).reverse) := by
    unfold entry_line make_raw_url
    rw [String.data_append, String.data_append]
    simp [List.reverse_append, List.append_assoc]
  obtain ⟨c, t, hct⟩ := List.exists_cons_of_ne_nil
    (fun h0 => hne (List.reverse_eq_nil_iff.mp h0))
  have hc : c ∈ f.path.data := List.mem_reverse.mp (hct ▸ List.mem_cons_self c t)
  refine ⟨c, t ++ ("/".data.reverse ++ u.data.reverse
    ++ (py_str_nat i ++ ". ".data ++ f.path.data
      ++ " | language=".data ++ (orDefault f.language "unknown").data
      ++ " | kind=".data ++ (orDefault f.kind "source").data
      ++ " | url=".data).reverse), ?_, hpath c hc⟩
  rw [hrev, hct]
  rfl

/-! ### `split_on` / `join_with` lemmas -/

theorem join_with_cons (c : Char) (l : List Char) (ls : List (List Char))
    (h : ls ≠ []) : join_with c (l :: ls) = l ++ c :: join_with c ls := by
  cases ls with
  | nil => exact absurd rfl h
  | cons x xs => rfl

theorem join_with_append (c : Char) :
    ∀ (xs ys : List (List Char)), xs ≠ [] → ys ≠ [] →
      join_with c (xs ++ ys) = join_with c xs ++ c :: join_with c ys := by
  intro xs
  induction xs with
  | nil =>
    intro ys h _
    exact absurd rfl h
  | cons x xs ih =>
    intro ys _ hys
    cases xs with
    | nil =>
      show join_with c (x :: ys) = join_with c [x] ++ c :: join_with c ys
      rw [join_with_cons c x ys hys]
      rfl
    | cons x' xs' =>
      rw [List.cons_append, join_with_cons c x (x' :: xs' ++ ys) (by simp),
        join_with_cons c x (x' :: xs') (by simp), ih ys (by simp) hys]
      simp [List.append_assoc]

theorem prepend_join (c : Char) (p x : List Char) (xs : List (List Char)) :
    p ++ join_with c (x :: xs) = join_with c ((p ++ x) :: xs) := by
  cases xs with
  | nil => rfl
  | cons x' xs' =>
    rw [join_with_cons c x (x' :: xs') (by simp),
      join_with_cons c (p ++ x) (x' :: xs') (by simp), List.append_assoc]

theorem split_on_no_sep (c : Char) :
    ∀ l : List Char, c ∉ l → split_on c l = [l] := by
  intro l
  induction l with
  | nil =>
    intro _
    rfl
  | cons x rest ih =>
    intro h
    have hx : ¬ x = c := fun h0 => h (h0 ▸ List.mem_cons_self x rest)
    have hrest : c ∉ rest := fun h0 => h (List.mem_cons_of_mem x h0)
    unfold split_on
    rw [ih hrest]
    simp [hx]

theorem split_on_ne_nil (c : Char) : ∀ l : List Char, split_on c l ≠ [] := by
  intro l
  induction l with
  | nil => simp [split_on]
  | cons x rest ih =>
    unfold split_on
    obtain ⟨h, t, hht⟩ := List.exists_cons_of_ne_nil ih
    rw [hht]
    by_cases hx : x = c <;> simp [hx]

theorem split_on_append (c : Char) :
    ∀ (l m : List Char), c ∉ l → split_on c (l ++ c :: m) = l :: split_on c m := by
  intro l
  induction l with
  | nil =>
    intro m _
    show split_on c (c :: m) = [] :: split_on c m
    obtain ⟨h, t, hht⟩ := List.exists_cons_of_ne_nil (split_on_ne_nil c m)
    have hstep : split_on c (c :: m) =
        match split_on c m with
        | [] => [[c]]
        | h :: t => if c = c then [] :: h :: t else (c :: h) :: t := rfl
    rw [hstep, hht]
    simp
  | cons x rest ih =>
    intro m h
    have hx : ¬ x = c := fun h0 => h (h0 ▸ List.mem_cons_self x rest)
    have hrest : c ∉ rest := fun h0 => h (List.mem_cons_of_mem x h0)
    show split_on c (x :: (rest ++ c :: m)) = (x :: rest) :: split_on c m
    have hstep : split_on c (x :: (rest ++ c :: m)) =
        match split_on c (rest ++ c :: m) with
        | [] => [[x]]
        | h :: t => if x = c then [] :: h :: t else (x :: h) :: t := rfl
    rw [hstep, ih m hrest]
    simp [hx]

theorem split_on_join_append (c : Char) :
    ∀ (ls : List (List Char)) (m : List Char), (∀ x ∈ ls, c ∉ x) → ls ≠ [] →
      split_on c (join_with c ls ++ c :: m) = ls ++ split_on c m := by
  intro ls
  induction ls with
  | nil =>
    intro m _ h
    exact absurd rfl h
  | cons l ls ih =>
    intro m hno _
    cases ls with
    | nil =>
      show split_on c (l ++ c :: m) = l :: split_on c m
      exact split_on_append c l m (hno l (List.mem_cons_self l []))
    | cons l' ls' =>
      rw [join_with_cons c l (l' :: ls') (by simp), List.append_assoc,
        List.cons_append]
      rw [split_on_append c l _ (hno l (List.mem_cons_self l _))]
      rw [ih m (fun x hx => hno x (List.mem_cons_of_mem l hx)) (by simp)]
      rfl

/-! ### Margin (`lcp`) lemmas -/

theorem lcp_nil_left (y : List Char) : lcp [] y = [] := by
  cases y <;> rfl

theorem lcp_nil_right (x : List Char) : lcp x [] = [] := by
  cases x <;> rfl

theorem lcp_self : ∀ x : List Char, lcp x x = x := by
  intro x
  induction x with
  | nil => rfl
  | cons a as ih =>
    show (if a = a then a :: lcp as as else []) = a :: as
    rw [if_pos rfl, ih]

theorem foldl_lcp_nil : ∀ l : List (List Char), List.foldl lcp [] l = [] := by
  intro l
  induction l with
  | nil => rfl
  | cons x xs ih =>
    show List.foldl lcp (lcp [] x) xs = []
    rw [lcp_nil_left]
    exact ih

theorem foldl_lcp_mem_nil :
    ∀ (l : List (List Char)) (i : List Char), [] ∈ l → List.foldl lcp i l = [] := by
  intro l
  induction l with
  | nil =>
    intro i h
    exact absurd h (List.not_mem_nil _)
  | cons x xs ih =>
    intro i h
    rcases List.mem_cons.mp h with h1 | h1
    · show List.foldl lcp (lcp i x) xs = []
      rw [← h1, lcp_nil_right]
      exact foldl_lcp_nil xs
    · exact ih (lcp i x) h1

theorem foldl_lcp_const :
    ∀ (l : List (List Char)) (i : List Char), (∀ x ∈ l, x = i) →
      List.foldl lcp i l = i := by
  intro l
  induction l with
  | nil =>
    intro i _
    rfl
  | cons x xs ih =>
    intro i h
    show List.foldl lcp (lcp i x) xs = i
    rw [h x (List.mem_cons_self x xs), lcp_self]
    exact ih i (fun y hy => h y (List.mem_cons_of_mem x hy))

/-! ### `dropWhile` / `takeWhile` lemmas -/

theorem dropWhile_append_left {p : Char → Bool} {a : List Char}
    (h : List.dropWhile p a ≠ []) (b : List Char) :
    List.dropWhile p (a ++ b) = List.dropWhile p a ++ b := by
  rw [List.dropWhile_append, if_neg]
  intro h0
  exact h (List.isEmpty_iff.mp h0)

theorem takeWhile_indent_entry (e : List Char)
    (he : ∃ d t, e = digit_char d :: t) :
    ("    ".data ++ e).takeWhile dedent_ws = "    ".data := by
  obtain ⟨d, t, ht⟩ := he
  subst ht
  rw [List.takeWhile_append, if_pos (by decide)]
  rw [List.takeWhile_cons_of_neg (by rw [(digit_char_not_ws d).1]; simp)]
  rfl

/-! ### Strip assembly -/

theorem rstrip_step (Q FL : List Char)
    (h : ∃ c t, FL.reverse = c :: t ∧ py_ws c = false) :
    ((Q ++ (FL ++ ['\n'])).reverse.dropWhile py_ws).reverse = Q ++ FL := by
  obtain ⟨c, t, hct, hc⟩ := h
  rw [List.reverse_append, List.reverse_append]
  show ((['\n'].reverse ++ FL.reverse ++ Q.reverse).dropWhile py_ws).reverse = Q ++ FL
  rw [show (['\n'] : List Char).reverse = ['\n'] from rfl]
  rw [List.append_assoc]
  rw [show ('\n' :: []) ++ (FL.reverse ++ Q.reverse) = '\n' :: (FL.reverse ++ Q.reverse)
    from rfl]
  rw [List.dropWhile_cons_of_pos (by decide)]
  rw [hct, List.cons_append]
  rw [List.dropWhile_cons_of_neg (show ¬py_ws c = true by rw [hc]; simp)]
  rw [← List.cons_append, List.reverse_append, ← hct]
  simp

theorem join_rev_head (c : Char) :
    ∀ es : List (List Char), es ≠ [] →
      (∀ e ∈ es, ∃ d t, e.reverse = d :: t ∧ py_ws d = false) →
      ∃ d t, (join_with c es).reverse = d :: t ∧ py_ws d = false := by
  intro es
  induction es with
  | nil =>
    intro h _
    exact absurd rfl h
  | cons e es ih =>
    intro _ hall
    cases es with
    | nil => exact hall e (List.mem_cons_self e [])
    | cons e' es' =>
      rw [join_with_cons c e (e' :: es') (by simp)]
      obtain ⟨d, t, hdt, hd⟩ := ih (by simp)
        (fun x hx => hall x (List.mem_cons_of_mem e hx))
      refine ⟨d, t ++ [c] ++ e.reverse, ?_, hd⟩
      rw [List.reverse_append]
      rw [show (c :: join_with c (e' :: es')).reverse
        = (join_with c (e' :: es')).reverse ++ [c] from by simp]
      rw [hdt]
      simp

/-! ### Concrete facts about the fixed template -/

theorem template_fixed_no_newline : ∀ l ∈ template_fixed, '\n' ∉ l := by
  decide

theorem template_fixed_ws_norm :
    template_fixed.map ws_norm = template_fixed := by
  decide

theorem template_fixed_indents :
    ∀ x ∈ (template_fixed.filter (fun l => !l.all dedent_ws)).map
      (fun l => l.takeWhile dedent_ws), x = "    ".data := by
  decide

theorem template_join_dropWhile_ne_nil :
    (join_with '\n' template_fixed).dropWhile py_ws ≠ [] := by
  decide

theorem template_dedented_dropWhile_ne_nil :
    (join_with '\n' (template_fixed.map (drop_margin "    ".data))).dropWhile py_ws
      ≠ [] := by
  decide

theorem map_id_of {α : Type} (f : α → α) :
    ∀ l : List α, (∀ x ∈ l, f x = x) → l.map f = l := by
  intro l
  induction l with
  | nil =>
    intro _
    rfl
  | cons x xs ih =>
    intro h
    rw [List.map_cons, h x (List.mem_cons_self x xs),
      ih (fun y hy => h y (List.mem_cons_of_mem x hy))]

/-- Line decomposition of the formatted template text: the fixed
template lines, then the `    {files_list}` line (4-space indent glued
to the first entry, later entries on their own lines), then the final
4-space line before the closing triple quote. -/
theorem template_lines (e : List Char) (es : List (List Char))
    (hnl : ∀ x ∈ e :: es, '\n' ∉ x) :
    split_on '\n' (template_text (join_with '\n' (e :: es)))
      = template_fixed ++ ("    ".data ++ e) :: (es ++ ["    ".data]) := by
  unfold template_text
  rw [split_on_join_append '\n' template_fixed _ template_fixed_no_newline
    (by simp [template_fixed])]
  rw [prepend_join '\n' "    ".data e es]
  rw [split_on_join_append '\n' (("    ".data ++ e) :: es) "    ".data ?_ (by simp)]
  · rw [split_on_no_sep '\n' "    ".data (by decide)]
    simp
  · intro x hx
    rcases List.mem_cons.mp hx with h | h
    · subst h
      intro hmem
      rcases List.mem_append.mp hmem with h1 | h1
      · exact absurd h1 (by decide)
      · exact hnl e (List.mem_cons_self e es) h1
    · exact hnl x (List.mem_cons_of_mem e h)

/-- Entry lines are kept unchanged by whitespace-line normalization. -/
theorem entry_all_false (d : Nat) (t : List Char) :
    (digit_char d :: t).all dedent_ws = false := by
  rw [List.all_cons, (digit_char_not_ws d).1]
  simp

theorem ws_norm_entry (x : List Char) (hd : ∃ d t, x = digit_char d :: t) :
    ws_norm x = x := by
  obtain ⟨d, t, ht⟩ := hd
  subst ht
  unfold ws_norm ws_only
  rw [entry_all_false d t]
  simp

/-- The `    {files_list}` line is kept unchanged by whitespace-line
normalization. -/
theorem ws_norm_indent_entry (x : List Char) (hd : ∃ d t, x = digit_char d :: t) :
    ws_norm ("    ".data ++ x) = "    ".data ++ x := by
  obtain ⟨d, t, ht⟩ := hd
  subst ht
  have hall : ("    ".data ++ digit_char d :: t).all dedent_ws = false := by
    rw [List.all_append, entry_all_false d t]
    simp
  unfold ws_norm ws_only
  rw [hall]
  simp

/-- With at least two entry lines, the dedent margin is empty: the
second entry line starts at column zero with a digit. -/
theorem margin_nil_of_second_entry (e₁ : List Char) (es : List (List Char))
    (hes : es ≠ [])
    (hdig : ∀ x ∈ es, ∃ d t, x = digit_char d :: t) :
    dedent_margin (template_fixed ++ ("    ".data ++ e₁) :: (es ++ [[]])) = [] := by
  obtain ⟨e₂, es', hes2⟩ := List.exists_cons_of_ne_nil hes
  have he₂ : e₂ ∈ es := by rw [hes2]; exact List.mem_cons_self e₂ es'
  obtain ⟨d, t, hdt⟩ := hdig e₂ he₂
  have hmem : e₂ ∈ template_fixed ++ ("    ".data ++ e₁) :: (es ++ [[]]) := by
    refine List.mem_append.mpr (Or.inr ?_)
    exact List.mem_cons_of_mem _ (List.mem_append.mpr (Or.inl he₂))
  have hfilter : e₂ ∈ (template_fixed ++ ("    ".data ++ e₁) :: (es ++ [[]])).filter
      (fun l => !l.all dedent_ws) := by
    rw [List.mem_filter]
    refine ⟨hmem, ?_⟩
    rw [hdt, List.all_cons, (digit_char_not_ws d).1]
    simp
  have hnilmem : [] ∈ ((template_fixed ++ ("    ".data ++ e₁) :: (es ++ [[]])).filter
      (fun l => !l.all dedent_ws)).map (fun l => l.takeWhile dedent_ws) := by
    refine List.mem_map.mpr ⟨e₂, hfilter, ?_⟩
    rw [hdt]
    exact List.takeWhile_cons_of_neg (by rw [(digit_char_not_ws d).1]; simp)
  unfold dedent_margin
  rcases hind : ((template_fixed ++ ("    ".data ++ e₁) :: (es ++ [[]])).filter
      (fun l => !l.all dedent_ws)).map (fun l => l.takeWhile dedent_ws) with _ | ⟨i, is⟩
  · rw [hind]
  · rw [hind]
    rw [hind] at hnilmem
    rcases List.mem_cons.mp hnilmem with h | h
    · rw [← h]
      exact foldl_lcp_nil is
    · exact foldl_lcp_mem_nil is i h

/-- With two or more entries, `dedent` strips nothing (the margin is
empty), and `strip` trims exactly the leading blank line with the
first fixed line's indent, and the trailing newline: the final prompt
is the raw template body followed by the intact files list. -/
theorem dedent_strip_multi (e₁ : List Char) (es : List (List Char))
    (hes : es ≠ [])
    (hdig : ∀ x ∈ e₁ :: es, ∃ d t, x = digit_char d :: t)
    (hnl : ∀ x ∈ e₁ :: es, '\n' ∉ x)
    (hrev : ∀ x ∈ e₁ :: es, ∃ c t, x.reverse = c :: t ∧ py_ws c = false) :
    py_strip_chars (py_dedent (template_text (join_with '\n' (e₁ :: es))))
      = ((join_with '\n' template_fixed).dropWhile py_ws ++ '\n' :: "    ".data)
        ++ join_with '\n' (e₁ :: es) := by
  have hsplit := template_lines e₁ es hnl
  have hnorm : (template_fixed ++ ("    ".data ++ e₁) :: (es ++ ["    ".data])).map ws_norm
      = template_fixed ++ ("    ".data ++ e₁) :: (es ++ [[]]) := by
    rw [List.map_append, template_fixed_ws_norm, List.map_cons, List.map_append]
    rw [ws_norm_indent_entry e₁ (hdig e₁ (List.mem_cons_self _ _))]
    rw [map_id_of ws_norm es
      (fun x hx => ws_norm_entry x (hdig x (List.mem_cons_of_mem _ hx)))]
    have hS : ws_norm "    ".data = [] := by decide
    simp [hS]
  have hmargin := margin_nil_of_second_entry e₁ es hes
    (fun x hx => hdig x (List.mem_cons_of_mem _ hx))
  have hdl : dedent_lines (template_fixed ++ ("    ".data ++ e₁) :: (es ++ [[]]))
      = template_fixed ++ ("    ".data ++ e₁) :: (es ++ [[]]) := by
    unfold dedent_lines
    rw [hmargin]
    simp
  have hjoin : join_with '\n' (template_fixed ++ ("    ".data ++ e₁) :: (es ++ [[]]))
      = (join_with '\n' template_fixed)
        ++ '\n' :: (("    ".data ++ e₁) ++ '\n' :: (join_with '\n' es ++ ['\n'])) := by
    rw [join_with_append '\n' template_fixed _ (by simp [template_fixed]) (by simp)]
    rw [join_with_cons '\n' _ (es ++ [[]]) (by simp)]
    rw [join_with_append '\n' es [[]] hes (by simp)]
    rfl
  have hform : py_dedent (template_text (join_with '\n' (e₁ :: es)))
      = ((join_with '\n' template_fixed) ++ '\n' :: "    ".data)
        ++ (join_with '\n' (e₁ :: es) ++ ['\n']) := by
    unfold py_dedent
    rw [hsplit, hnorm, hdl, hjoin]
    rw [join_with_cons '\n' e₁ es hes]
    simp [List.append_assoc]
  rw [hform]
  unfold py_strip_chars
  have hd1 : List.dropWhile py_ws (join_with '\n' template_fixed ++ '\n' :: "    ".data)
      = (join_with '\n' template_fixed).dropWhile py_ws ++ '\n' :: "    ".data :=
    dropWhile_append_left template_join_dropWhile_ne_nil _
  have hd2 : List.dropWhile py_ws
      (((join_with '\n' template_fixed) ++ '\n' :: "    ".data)
        ++ (join_with '\n' (e₁ :: es) ++ ['\n']))
      = ((join_with '\n' template_fixed).dropWhile py_ws ++ '\n' :: "    ".data)
        ++ (join_with '\n' (e₁ :: es) ++ ['\n']) := by
    rw [dropWhile_append_left (by rw [hd1]; simp) _, hd1]
  rw [hd2]
  exact rstrip_step _ _ (join_rev_head '\n' (e₁ :: es) (by simp) hrev)

/-- With exactly one entry, every line of the template carries the
4-space indent, so `dedent` removes it everywhere; `strip` then trims
the leading blank line and the trailing newline. -/
theorem dedent_strip_single (e₁ : List Char)
    (hdig : ∃ d t, e₁ = digit_char d :: t)
    (hnl : '\n' ∉ e₁)
    (hrev : ∃ c t, e₁.reverse = c :: t ∧ py_ws c = false) :
    py_strip_chars (py_dedent (template_text (join_with '\n' [e₁])))
      = ((join_with '\n' (template_fixed.map (drop_margin "    ".data))).dropWhile py_ws
          ++ ['\n']) ++ e₁ := by
  have hsplit := template_lines e₁ [] (by
    intro x hx
    rcases List.mem_cons.mp hx with h | h
    · subst h
      exact hnl
    · exact absurd h (List.not_mem_nil x))
  have hnorm : (template_fixed ++ ("    ".data ++ e₁) :: ([] ++ ["    ".data])).map ws_norm
      = template_fixed ++ ("    ".data ++ e₁) :: [[]] := by
    rw [List.map_append, template_fixed_ws_norm, List.map_cons]
    rw [ws_norm_indent_entry e₁ hdig]
    have hS : ws_norm "    ".data = [] := by decide
    simp [hS]
  have heq : ((template_fixed ++ ("    ".data ++ e₁) :: [[]]).filter
        (fun l => !l.all dedent_ws)).map (fun l => l.takeWhile dedent_ws)
      = ((template_fixed.filter (fun l => !l.all dedent_ws)).map
          (fun l => l.takeWhile dedent_ws)) ++ ["    ".data] := by
    rw [List.filter_append, List.map_append]
    congr 1
    obtain ⟨d, t, hdt⟩ := hdig
    have hall : (!("    ".data ++ e₁).all dedent_ws) = true := by
      rw [hdt, List.all_append, entry_all_false d t]
      simp
    rw [@List.filter_cons_of_pos _ (fun l => !l.all dedent_ws) _ [[]] hall]
    rw [show List.filter (fun l => !l.all dedent_ws) [([] : List Char)] = [] from by decide]
    rw [List.map_cons, List.map_nil, takeWhile_indent_entry e₁ ⟨d, t, hdt⟩]
  have hAll : ∀ x ∈ ((template_fixed ++ ("    ".data ++ e₁) :: [[]]).filter
        (fun l => !l.all dedent_ws)).map (fun l => l.takeWhile dedent_ws),
      x = "    ".data := by
    rw [heq]
    intro x hx
    rcases List.mem_append.mp hx with h | h
    · exact template_fixed_indents x h
    · simpa using h
  have hmargin : dedent_margin (template_fixed ++ ("    ".data ++ e₁) :: [[]])
      = "    ".data := by
    unfold dedent_margin
    rcases hind : ((template_fixed ++ ("    ".data ++ e₁) :: [[]]).filter
        (fun l => !l.all dedent_ws)).map (fun l => l.takeWhile dedent_ws) with _ | ⟨i, is⟩
    · rw [hind] at heq
      exact absurd heq.symm (by simp)
    · rw [hind]
      rw [hind] at hAll
      rw [hAll i (List.mem_cons_self i is)]
      exact foldl_lcp_const is "    ".data
        (fun x hx => hAll x (List.mem_cons_of_mem i hx))
  have hdm1 : drop_margin "    ".data ("    ".data ++ e₁) = e₁ := by
    unfold drop_margin
    rw [if_pos ( List.isPrefixOf_iff_prefix.mpr (List.prefix_append _ _))]
    exact List.drop_left _ _
  have hdl : dedent_lines (template_fixed ++ ("    ".data ++ e₁) :: [[]])
      = template_fixed.map (drop_margin "    ".data) ++ [e₁, []] := by
    unfold dedent_lines
    rw [hmargin]
    rw [if_neg (by decide)]
    rw [List.map_append, List.map_cons, hdm1]
    rw [show (([[]] : List (List Char)).map (drop_margin "    ".data)) = [[]] from by decide]
  have hform : py_dedent (template_text (join_with '\n' [e₁]))
      = ((join_with '\n' (template_fixed.map (drop_margin "    ".data))) ++ ['\n'])
        ++ (e₁ ++ ['\n']) := by
    unfold py_dedent
    rw [show join_with '\n' [e₁] = e₁ from rfl] at hsplit ⊢
    rw [hsplit, hnorm, hdl]
    rw [join_with_append '\n' (template_fixed.map (drop_margin "    ".data)) [e₁, []]
      (by simp [template_fixed]) (by simp)]
    rw [show join_with '\n' [e₁, ([] : List Char)] = e₁ ++ ['\n'] from rfl]
    simp [List.append_assoc]
  rw [show join_with '\n' [e₁] = e₁ from rfl] at hform ⊢
  rw [hform]
  unfold py_strip_chars
  have hd1 : List.dropWhile py_ws
      ((join_with '\n' (template_fixed.map (drop_margin "    ".data))) ++ ['\n'])
      = (join_with '\n' (template_fixed.map (drop_margin "    ".data))).dropWhile py_ws
        ++ ['\n'] :=
    dropWhile_append_left template_dedented_dropWhile_ne_nil _
  have hd2 : List.dropWhile py_ws
      (((join_with '\n' (template_fixed.map (drop_margin "    ".data))) ++ ['\n'])
        ++ (e₁ ++ ['\n']))
      = ((join_with '\n' (template_fixed.map (drop_margin "    ".data))).dropWhile py_ws
          ++ ['\n']) ++ (e₁ ++ ['\n']) := by
    rw [dropWhile_append_left (by rw [hd1]; simp) _, hd1]
  rw [hd2]
  exact rstrip_step _ _ hrev

/-- Amended claim C1: the prompt does not carry one `=== FILE: <path> ===`
block per batch file (see the counterexample); instead it contains, for
each file in the batch, one enumerated entry line
`<idx>. <path> | language=<lang> | kind=<kind> | url=<base>/<path>`, and
the newline-joined sequence of these entries, in the same order as the
input batch, occurs contiguously inside the prompt.  Stated for batches
whose paths are non-empty and whitespace-free and whose metadata and
base URL contain no newline (true of every real repository path). -/
theorem prompt_contains_entries_in_order (base_url : String) (batch : List FileRow)
    (hne : batch ≠ [])
    (hpath : ∀ f ∈ batch, f.path.data ≠ [] ∧ ∀ c ∈ f.path.data, py_ws c = false)
    (hurl : ∀ c ∈ base_url.data, c ≠ '\n')
    (hmeta : ∀ f ∈ batch, (∀ c ∈ (orDefault f.language "unknown").data, c ≠ '\n')
      ∧ (∀ c ∈ (orDefault f.kind "source").data, c ≠ '\n')) :
    files_list base_url batch <:+: (build_prompt base_url batch).data
    ∧ (entry_lines base_url batch).length = batch.length
    ∧ ∀ i (hi : i < batch.length),
        (batch.get ⟨i, hi⟩).path.data <:+: (entry_lines base_url batch).getD i [] := by
  have hprops : ∀ x ∈ entry_lines base_url batch,
      (∃ d t, x = digit_char d :: t) ∧ '\n' ∉ x
        ∧ (∃ c t, x.reverse = c :: t ∧ py_ws c = false) := by
    intro x hx
    rcases List.mem_map.mp hx with ⟨⟨i, g⟩, hp, hxe⟩
    have hg : g ∈ batch := by
      have h3 := (List.mem_enumFrom hp).2.2
      rw [h3]
      exact List.getElem_mem _
    rw [← hxe]
    exact ⟨entry_head _ _ _,
      entry_no_newline _ _ _ (hpath g hg).2 hurl (hmeta g hg).1 (hmeta g hg).2,
      entry_rev_head _ _ _ (hpath g hg).1 (hpath g hg).2⟩
  refine ⟨?_, by simp [entry_lines, List.enumFrom_length], ?_⟩
  · have hlnz : entry_lines base_url batch ≠ [] := by
      intro h0
      have : (entry_lines base_url batch).length = 0 := by rw [h0]; rfl
      rw [show (entry_lines base_url batch).length = batch.length from by
        simp [entry_lines, List.enumFrom_length]] at this
      exact hne (List.length_eq_zero.mp this)
    obtain ⟨e₁, es, hE⟩ := List.exists_cons_of_ne_nil hlnz
    have hmem : ∀ x ∈ e₁ :: es, x ∈ entry_lines base_url batch := by
      intro x hx
      rw [hE]
      exact hx
    rw [build_prompt_data, build_prompt_chars_eq]
    unfold files_list
    rw [hE]
    cases es with
    | nil =>
      have hp := hprops e₁ (hmem e₁ (List.mem_cons_self _ _))
      rw [dedent_strip_single e₁ hp.1 hp.2.1 hp.2.2]
      exact ⟨(join_with '\n' (template_fixed.map (drop_margin "    ".data))).dropWhile py_ws
        ++ ['\n'], [], by simp [join_with_singleton]⟩
    | cons e₂ es' =>
      rw [dedent_strip_multi e₁ (e₂ :: es') (by simp)
        (fun x hx => (hprops x (hmem x hx)).1)
        (fun x hx => (hprops x (hmem x hx)).2.1)
        (fun x hx => (hprops x (hmem x hx)).2.2)]
      exact ⟨(join_with '\n' template_fixed).dropWhile py_ws ++ '\n' :: "    ".data,
        [], by simp⟩
  · intro i hi
    have hlen : i < (entry_lines base_url batch).length := by
      simp [entry_lines, List.enumFrom_length]
      exact hi
    rw [List.getD_eq_getElem _ _ hlen]
    unfold entry_lines
    rw [List.getElem_map, List.getElem_enumFrom]
    rw [List.get_eq_getElem]
    refine ⟨py_str_nat (1 + i) ++ ". ".data,
      " | language=".data ++ (orDefault (batch[i]).language "unknown").data
        ++ " | kind=".data ++ (orDefault (batch[i]).kind "source").data
        ++ " | url=".data ++ (make_raw_url base_url (batch[i]).path).data, ?_⟩
    unfold entry_line
    simp [List.append_assoc]

/-- Witness for the amended claim C1 at a concrete two-file batch. -/
theorem prompt_contains_entries_in_order_witness :
    (wit_batch ≠ [])
    ∧ (∀ f ∈ wit_batch, f.path.data ≠ [] ∧ ∀ c ∈ f.path.data, py_ws c = false)
    ∧ (∀ c ∈ wit_url.data, c ≠ '\n')
    ∧ (∀ f ∈ wit_batch, (∀ c ∈ (orDefault f.language "unknown").data, c ≠ '\n')
        ∧ (∀ c ∈ (orDefault f.kind "source").data, c ≠ '\n'))
    ∧ (files_list wit_url wit_batch <:+: (build_prompt wit_url wit_batch).data
      ∧ (entry_lines wit_url wit_batch).length = wit_batch.length
      ∧ ∀ i (hi : i < wit_batch.length),
          (wit_batch.get ⟨i, hi⟩).path.data <:+: (entry_lines wit_url wit_batch).getD i []) :=
  ⟨by decide, by decide, by decide, by decide,
    prompt_contains_entries_in_order wit_url wit_batch (by decide) (by decide)
      (by decide) (by decide)⟩

/-! ### Lemmas about `dedup_by_path` -/

theorem dedup_go_find (rows : List FileRow) :
    ∀ (acc : List FileRow) (p : String),
      ((rows.foldl (fun seen row =>
          if seen.any (fun r => r.path == row.path) then seen else seen ++ [row]) acc).find?
        (fun r => r.path == p))
      = ((acc.find? (fun r => r.path == p)).or (rows.find? (fun r => r.path == p))) := by
  induction rows with
  | nil =>
    intro acc p
    simp
  | cons r rs ih =>
    intro acc p
    simp only [List.foldl_cons]
    by_cases h : acc.any (fun x => x.path == r.path) = true
    · rw [if_pos h, ih]
      by_cases hp : r.path = p
      · have hex : ∃ x ∈ acc, (x.path == p) = true := by
          rcases List.any_eq_true.mp h with ⟨x, hx, hxe⟩
          refine ⟨x, hx, ?_⟩
          rw [beq_iff_eq] at hxe ⊢
          rw [hxe, hp]
        have hsome : (acc.find? (fun r => r.path == p)).isSome :=
          List.find?_isSome.mpr hex
        obtain ⟨y, hy⟩ := Option.isSome_iff_exists.mp hsome
        rw [hy]
        rfl
      · have hcons : (r :: rs).find? (fun x => x.path == p)
            = rs.find? (fun x => x.path == p) := by
          rw [List.find?_cons_of_neg]
          simp [hp]
        rw [hcons]
    · rw [if_neg h, ih, List.find?_append, Option.or_assoc]
      congr 1
      by_cases hp : r.path = p
      · rw [List.find?_cons_of_pos _ (by simp [hp]),
          List.find?_cons_of_pos _ (by simp [hp])]
        rfl
      · rw [List.find?_cons_of_neg _ (by simp [hp]),
          List.find?_cons_of_neg _ (by simp [hp])]
        simp

theorem dedup_go_nodup (rows : List FileRow) :
    ∀ acc : List FileRow,
      (acc.map (fun r => r.path)).Nodup →
      ((rows.foldl (fun seen row =>
          if seen.any (fun r => r.path == row.path) then seen else seen ++ [row]) acc).map
        (fun r => r.path)).Nodup := by
  induction rows with
  | nil =>
    intro acc h
    simpa using h
  | cons r rs ih =>
    intro acc h
    simp only [List.foldl_cons]
    by_cases hy : acc.any (fun x => x.path == r.path) = true
    · rw [if_pos hy]
      exact ih acc h
    · rw [if_neg hy]
      apply ih
      rw [List.map_append, List.nodup_append]
      refine ⟨h, by simp, ?_⟩
      intro a ha hb
      simp only [List.map_cons, List.map_nil, List.mem_singleton] at hb
      rcases List.mem_map.mp ha with ⟨x, hx, hxp⟩
      exact hy (List.any_eq_true.mpr ⟨x, hx, by rw [beq_iff_eq, hxp, hb]⟩)

/-- Claim C6: deduplication in `fetch_pending_files` yields a list in
which each path occurs exactly once (exactly once for every input
path, never for others), and the retained row for each path is the
first occurrence in the input with all its fields preserved (the
first row found for any path predicate is unchanged). -/
theorem dedup_first_occurrence (rows : List FileRow) :
    ((dedup_by_path rows).map (fun r => r.path)).Nodup
    ∧ (∀ p : String, (dedup_by_path rows).find? (fun r => r.path == p)
        = rows.find? (fun r => r.path == p))
    ∧ (∀ p : String, ((dedup_by_path rows).map (fun r => r.path)).count p
        = if p ∈ rows.map (fun r => r.path) then 1 else 0) := by
  have hfind : ∀ p : String, (dedup_by_path rows).find? (fun r => r.path == p)
      = rows.find? (fun r => r.path == p) := by
    intro p
    unfold dedup_by_path
    rw [dedup_go_find rows [] p]
    simp
  have hnodup : ((dedup_by_path rows).map (fun r => r.path)).Nodup := by
    unfold dedup_by_path
    exact dedup_go_nodup rows [] (by simp)
  refine ⟨hnodup, hfind, ?_⟩
  intro p
  by_cases hp : p ∈ rows.map (fun r => r.path)
  · rw [if_pos hp]
    have hex : ∃ x ∈ rows, (x.path == p) = true := by
      rcases List.mem_map.mp hp with ⟨x, hx, he⟩
      exact ⟨x, hx, by rw [beq_iff_eq]; exact he⟩
    have hsome : ((dedup_by_path rows).find? (fun r => r.path == p)).isSome := by
      rw [hfind p]
      exact List.find?_isSome.mpr hex
    have hmem : p ∈ (dedup_by_path rows).map (fun r => r.path) := by
      rcases List.find?_isSome.mp hsome with ⟨x, hx, he⟩
      exact List.mem_map.mpr ⟨x, hx, beq_iff_eq.mp he⟩
    exact List.count_eq_one_of_mem hnodup hmem
  · rw [if_neg hp]
    apply List.count_eq_zero_of_not_mem
    intro hmem
    rcases List.mem_map.mp hmem with ⟨x, hx, he⟩
    have hsome : ((dedup_by_path rows).find? (fun r => r.path == p)).isSome :=
      List.find?_isSome.mpr ⟨x, hx, by rw [beq_iff_eq]; exact he⟩
    rw [hfind p] at hsome
    rcases List.find?_isSome.mp hsome with ⟨y, hy, hye⟩
    exact hp (List.mem_map.mpr ⟨y, hy, beq_iff_eq.mp hye⟩)

/-- Claim C2 (what the code actually does at the spec's failing
input): with three pending-validation jobs where the store update of
the second raises, the validator loop patches the first job, attempts
the second, and then aborts — the third job is never evaluated or
updated, contradicting the fault-isolation requirement. -/
theorem validator_no_fault_isolation :
    validate_loop (fun id => !(id == 2))
        [⟨1, 10, "converted_pending_validation", some "code1", none⟩,
         ⟨2, 11, "converted_pending_validation", some "code2", none⟩,
         ⟨3, 12, "converted_pending_validation", some "code3", none⟩]
      = ([Req.patchJob 1 "converted_ok" none, Req.patchJob 2 "converted_ok" none],
         some "job PATCH failed")
    ∧ ∀ st er, Req.patchJob 3 st er ∉
        (validate_loop (fun id => !(id == 2))
          [⟨1, 10, "converted_pending_validation", some "code1", none⟩,
           ⟨2, 11, "converted_pending_validation", some "code2", none⟩,
           ⟨3, 12, "converted_pending_validation", some "code3", none⟩]).1 := by
  have h : validate_loop (fun id => !(id == 2))
        [⟨1, 10, "converted_pending_validation", some "code1", none⟩,
         ⟨2, 11, "converted_pending_validation", some "code2", none⟩,
         ⟨3, 12, "converted_pending_validation", some "code3", none⟩]
      = ([Req.patchJob 1 "converted_ok" none, Req.patchJob 2 "converted_ok" none],
         some "job PATCH failed") := by decide
  refine ⟨h, ?_⟩
  intro st er hmem
  rw [h] at hmem
  rcases List.mem_cons.mp hmem with h1 | h1
  · cases h1
  · rcases List.mem_cons.mp h1 with h2 | h2
    · cases h2
    · exact absurd h2 (List.not_mem_nil _)

/-- Claim C3: in `create_job`, the per-file `in_job` updates are
issued only after the job-creation POST succeeded — if the POST fails,
the trace contains no file-update request at all (so every file keeps
its prior state), and whenever the batch is non-empty the first
request issued is the job-creation POST itself. -/
theorem create_job_updates_only_after_post (base_url : String)
    (batch : List FileRow) (patchOk : Nat → Bool) :
    (∀ r ∈ (create_job base_url batch false patchOk).1,
      ∀ id st, r ≠ Req.patchFile id st)
    ∧ (∀ postOk id st,
        Req.patchFile id st ∈ (create_job base_url batch postOk patchOk).1 →
        postOk = true)
    ∧ (∀ postOk f fs, batch = f :: fs →
        (create_job base_url batch postOk patchOk).1.head? =
          some (Req.postJob f.id (batch.map (fun x => x.path)) "queued"
            (build_prompt base_url batch))) := by
  have hfalse : ∀ r ∈ (create_job base_url batch false patchOk).1,
      ∀ id st, r ≠ Req.patchFile id st := by
    cases batch with
    | nil =>
      intro r hr
      exact absurd hr (List.not_mem_nil r)
    | cons f fs =>
      intro r hr id st
      have : r = Req.postJob f.id ((f :: fs).map (fun x => x.path)) "queued"
          (build_prompt base_url (f :: fs)) := by
        rcases List.mem_cons.mp hr with h | h
        · exact h
        · exact absurd h (List.not_mem_nil r)
      rw [this]
      intro hcon
      cases hcon
  refine ⟨hfalse, ?_, ?_⟩
  · intro postOk id st hmem
    cases postOk with
    | true => rfl
    | false => exact absurd rfl (hfalse _ hmem id st)
  · intro postOk f fs hbatch
    subst hbatch
    cases postOk <;> rfl

/-- Witness for C3 at a concrete batch, with the POST failing. -/
theorem create_job_updates_only_after_post_witness :
    (∀ r ∈ (create_job "u" ([⟨1, "a.py", none, none, "pending"⟩] : List FileRow) false
        (fun _ => true)).1, ∀ id st, r ≠ Req.patchFile id st)
    ∧ (∀ postOk id st,
        Req.patchFile id st ∈ (create_job "u"
          ([⟨1, "a.py", none, none, "pending"⟩] : List FileRow)
          postOk (fun _ => true)).1 → postOk = true)
    ∧ (∀ (postOk : Bool) (f : FileRow) (fs : List FileRow),
        ([⟨1, "a.py", none, none, "pending"⟩] : List FileRow) = f :: fs →
        (create_job "u" ([⟨1, "a.py", none, none, "pending"⟩] : List FileRow) postOk
          (fun _ => true)).1.head? =
          some (Req.postJob f.id (([⟨1, "a.py", none, none, "pending"⟩] : List FileRow).map
            (fun x => x.path)) "queued"
            (build_prompt "u" ([⟨1, "a.py", none, none, "pending"⟩] : List FileRow)))) :=
  create_job_updates_only_after_post "u" [⟨1, "a.py", none, none, "pending"⟩]
    (fun _ => true)

/-- Claim C9: for every run of each entry-point script, a missing or
empty required environment value (store URL, store credential, and for
the job-creation step also the raw base URL) is a fatal startup error:
the run exits with the script's fatal message and an empty request
trace — no store or network request is issued. -/
theorem env_preflight_fatal (e : Env) (o : CreateOracle) (vo : ValidateOracle)
    (records : List String) (postOk : Bool)
    (hmiss : e.supabase_url = none ∨ e.supabase_url = some ""
      ∨ e.service_role_key = none ∨ e.service_role_key = some ""
      ∨ e.repo_raw_base_url = none ∨ e.repo_raw_base_url = some "") :
    create_jobs_run e o =
      ([], some "Missing SUPABASE_URL, SUPABASE_SERVICE_ROLE_KEY, or REPO_RAW_BASE_URL")
    ∧ ((e.supabase_url = none ∨ e.supabase_url = some ""
        ∨ e.service_role_key = none ∨ e.service_role_key = some "") →
      validate_jobs_run e vo =
        ([], some "Missing SUPABASE_URL or SUPABASE_SERVICE_ROLE_KEY env vars")
      ∧ scan_repo_run e records postOk =
        ([], some "Missing SUPABASE_URL or SUPABASE_SERVICE_ROLE_KEY env vars")) := by
  have hfalsy : ∀ x : Option String, x = none ∨ x = some "" → py_truthy x = false := by
    intro x hx
    rcases hx with hx | hx <;> subst hx <;> rfl
  constructor
  · have hcond : (py_truthy e.supabase_url && py_truthy e.service_role_key
        && py_truthy e.repo_raw_base_url) = false := by
      rcases hmiss with h | h | h | h | h | h
      · rw [hfalsy e.supabase_url (Or.inl h)]; simp
      · rw [hfalsy e.supabase_url (Or.inr h)]; simp
      · rw [hfalsy e.service_role_key (Or.inl h)]; simp
      · rw [hfalsy e.service_role_key (Or.inr h)]; simp
      · rw [hfalsy e.repo_raw_base_url (Or.inl h)]; simp
      · rw [hfalsy e.repo_raw_base_url (Or.inr h)]; simp
    unfold create_jobs_run create_preflight
    rw [hcond]
    rfl
  · intro h2
    have hcond : (py_truthy e.supabase_url && py_truthy e.service_role_key) = false := by
      rcases h2 with h | h | h | h
      · rw [hfalsy e.supabase_url (Or.inl h)]; simp
      · rw [hfalsy e.supabase_url (Or.inr h)]; simp
      · rw [hfalsy e.service_role_key (Or.inl h)]; simp
      · rw [hfalsy e.service_role_key (Or.inr h)]; simp
    constructor
    · unfold validate_jobs_run two_var_preflight
      rw [hcond]
      rfl
    · unfold scan_repo_run two_var_preflight
      rw [hcond]
      rfl

/-- Witness for C9 with every environment value absent. -/
theorem env_preflight_fatal_witness :
    ((⟨none, none, none⟩ : Env).supabase_url = none
      ∨ (⟨none, none, none⟩ : Env).supabase_url = some ""
      ∨ (⟨none, none, none⟩ : Env).service_role_key = none
      ∨ (⟨none, none, none⟩ : Env).service_role_key = some ""
      ∨ (⟨none, none, none⟩ : Env).repo_raw_base_url = none
      ∨ (⟨none, none, none⟩ : Env).repo_raw_base_url = some "")
    ∧ (create_jobs_run ⟨none, none, none⟩ ⟨true, [], fun _ => true, fun _ => true⟩ =
      ([], some "Missing SUPABASE_URL, SUPABASE_SERVICE_ROLE_KEY, or REPO_RAW_BASE_URL")
    ∧ (((⟨none, none, none⟩ : Env).supabase_url = none
        ∨ (⟨none, none, none⟩ : Env).supabase_url = some ""
        ∨ (⟨none, none, none⟩ : Env).service_role_key = none
        ∨ (⟨none, none, none⟩ : Env).service_role_key = some "") →
      validate_jobs_run ⟨none, none, none⟩ ⟨true, [], fun _ => true⟩ =
        ([], some "Missing SUPABASE_URL or SUPABASE_SERVICE_ROLE_KEY env vars")
      ∧ scan_repo_run ⟨none, none, none⟩ ["a.py"] true =
        ([], some "Missing SUPABASE_URL or SUPABASE_SERVICE_ROLE_KEY env vars"))) :=
  ⟨Or.inl rfl,
    env_preflight_fatal ⟨none, none, none⟩ ⟨true, [], fun _ => true, fun _ => true⟩
      ⟨true, [], fun _ => true⟩ ["a.py"] true (Or.inl rfl)⟩

/-- Witness for C8 at a concrete batch and URL. -/
theorem build_prompt_deterministic_witness :
    ([⟨1, "a.py", some "python", some "source", "pending"⟩] : List FileRow)
        = [⟨1, "a.py", some "python", some "source", "pending"⟩]
    ∧ "https://raw.x/r/main" = "https://raw.x/r/main"
    ∧ build_prompt "https://raw.x/r/main" [⟨1, "a.py", some "python", some "source", "pending"⟩]
        = build_prompt "https://raw.x/r/main" [⟨1, "a.py", some "python", some "source", "pending"⟩] :=
  ⟨rfl, rfl, build_prompt_deterministic _ _ _ _ rfl rfl⟩

end Pipeline
